import Mathlib

/-!
Shallow embedding of the document-structuring pipeline of
`src/workers/ocr/worker.py` (class `OCRProcessor` and the page loop of
`process_ocr_job`), together with theorems settling the frozen claims.

Texts are modelled as `List Char` (Python `str`), price values exactly
in hundredths of a unit (the price patterns admit at most two decimals),
and fallible page processing as `Except`. Rationals appear only in the
upscaling step, where the source computes a real-valued scale factor.
-/

/-- Python's `\s` whitespace class (space, tab, newline, carriage return,
vertical tab, form feed). -/
def isSpc (c : Char) : Bool :=
  c = ' ' || c = '\t' || c = '\n' || c = '\r' || c = '\x0b' || c = '\x0c'

/-- Python's `needle in haystack` substring test on strings. -/
def substr (needle : List Char) : List Char → Bool
  | [] => needle.isEmpty
  | c :: t => List.isPrefixOf needle (c :: t) || substr needle t

/-- Digit run to a natural number (`"1299"` ↦ 1299). -/
def digitsToNat (ds : List Char) : Nat :=
  ds.foldl (fun a c => 10 * a + (c.toNat - 48)) 0

/-- `float(price_str.replace(',', '.'))` on the matched amount group
(worker.py line 187), represented exactly in hundredths: the amount
patterns only ever produce a digit string with an optional separator
followed by exactly two decimals, so `d.dd` ↦ `100*d + dd` holds the
parsed value exactly (Python's float parse is injective on these
two-decimal inputs, so equality of values coincides with equality in
hundredths). -/
def parseVal (g1 : List Char) : Nat :=
  let s := g1.map (fun c => if c = ',' then '.' else c)
  let ip := s.takeWhile (fun c => c ≠ '.')
  let fp := (s.dropWhile (fun c => c ≠ '.')).drop 1
  digitsToNat ip * 100 + digitsToNat fp

inductive Currency where
  | USD
  | EUR
  | GBP
deriving DecidableEq

/-- Currency resolution of worker.py lines 189-193: default USD, EUR if the
matched text contains `€`, GBP if it contains `£`. -/
def currencyOf (g0 : List Char) : Currency :=
  if g0.contains '€' then .EUR else if g0.contains '£' then .GBP else .USD

/-- One extracted price (worker.py lines 195-200). `value` is the parsed
amount in hundredths (see `parseVal`); `raw` is the full matched text
(regex group 0) and `position` the character offset of the match start. -/
structure Price where
  value : Nat
  currency : Currency
  raw : List Char
  position : Nat
deriving DecidableEq

/-- The amount sub-pattern `\d+(?:<sep>\d{2})?`: a greedy nonempty digit run,
then optionally a separator from `seps` followed by exactly two digits.
Returns the matched amount (regex group 1) and the remaining text. -/
def matchAmount (seps : List Char) (cs : List Char) : Option (List Char × List Char) :=
  let ds := cs.takeWhile Char.isDigit
  let rest := cs.dropWhile Char.isDigit
  if ds.isEmpty then none
  else
    match rest with
    | s :: d1 :: d2 :: rest2 =>
      if seps.contains s && d1.isDigit && d2.isDigit then some (ds ++ [s, d1, d2], rest2)
      else some (ds, rest)
    | _ => some (ds, rest)

/-- Matcher for the symbol-prefixed patterns `\$\s*(\d+(?:\.\d{2})?)`,
`€\s*(\d+(?:[.,]\d{2})?)` and `£\s*(\d+(?:\.\d{2})?)` at the head of the
text. Returns `(group0, group1, rest)`. -/
def matchSymbolPat (sym : Char) (seps : List Char) :
    List Char → Option (List Char × List Char × List Char)
  | [] => none
  | c :: t =>
    if c = sym then
      let sp := t.takeWhile isSpc
      let t1 := t.dropWhile isSpc
      match matchAmount seps t1 with
      | some (g1, rest) => some (sym :: (sp ++ g1), g1, rest)
      | none => none
    else none

/-- Matcher for `(\d+(?:\.\d{2})?)\s*USD` (case-insensitive) at the head of
the text. Returns `(group0, group1, rest)`. -/
def matchUsdPat (cs : List Char) : Option (List Char × List Char × List Char) :=
  match matchAmount ['.'] cs with
  | none => none
  | some (g1, rest) =>
    let sp := rest.takeWhile isSpc
    match rest.dropWhile isSpc with
    | u :: s :: d :: rest2 =>
      if u.toLower = 'u' && s.toLower = 's' && d.toLower = 'd' then
        some (g1 ++ sp ++ [u, s, d], g1, rest2)
      else none
    | _ => none

/-- `re.finditer` scan: try the pattern at each position left to right;
after a match, resume right after the matched text. The fuel argument is
initialised to the text length, which bounds the number of steps since
every step consumes at least one character. Yields
`(start, group0, group1)` triples. -/
def scanAux (P : List Char → Option (List Char × List Char × List Char)) :
    Nat → List Char → Nat → List (Nat × List Char × List Char)
  | 0, _, _ => []
  | _ + 1, [], _ => []
  | fuel + 1, c :: t, pos =>
    match P (c :: t) with
    | some (g0, g1, rest) =>
      if g0.length = 0 then (pos, g0, g1) :: scanAux P fuel t (pos + 1)
      else (pos, g0, g1) :: scanAux P fuel rest (pos + g0.length)
    | none => scanAux P fuel t (pos + 1)

def finditer (P : List Char → Option (List Char × List Char × List Char))
    (text : List Char) : List (Nat × List Char × List Char) :=
  scanAux P text.length text 0

/-- The four price patterns of worker.py lines 174-179, in source order. -/
def pricePatterns : List (List Char → Option (List Char × List Char × List Char)) :=
  [matchSymbolPat '$' ['.'], matchUsdPat, matchSymbolPat '€' ['.', ','],
   matchSymbolPat '£' ['.']]

/-- `OCRProcessor.extract_prices` (worker.py lines 172-202): run the four
patterns over the text, pattern by pattern, and collect one Price per
match. -/
def extract_prices (text : List Char) : List Price :=
  (pricePatterns.map (fun P =>
    (finditer P text).map (fun m =>
      { value := parseVal m.2.2
        currency := currencyOf m.2.1
        raw := m.2.1
        position := m.1 : Price }))).flatten

/-- One recognized text fragment as consumed by the structurer
(worker.py `extract_text`): recognized text, bounding polygon, and a
confidence score (carried through unexamined; held here as an opaque
numeric tag since no structuring code ever reads it). -/
structure TextBlock where
  text : List Char
  bbox : List (Int × Int)
  confidence : Nat
deriving DecidableEq

/-- The `section_keywords` table of `detect_sections`
(worker.py lines 206-214), in source (dict insertion) order. -/
def sectionKeywords : List (List Char × List (List Char)) :=
  [("appetizers".toList,
     ["appetizer".toList, "starter".toList, "small plate".toList, "sharing".toList]),
   ("salads".toList, ["salad".toList, "greens".toList]),
   ("soups".toList, ["soup".toList, "bisque".toList, "chowder".toList]),
   ("mains".toList,
     ["main".toList, "entree".toList, "entrée".toList, "pasta".toList,
      "burger".toList, "sandwich".toList]),
   ("sides".toList, ["side".toList, "accompaniment".toList]),
   ("desserts".toList, ["dessert".toList, "sweet".toList, "pastry".toList]),
   ("drinks".toList,
     ["drink".toList, "beverage".toList, "cocktail".toList, "wine".toList,
      "beer".toList])]

/-- `OCRProcessor.detect_sections` (worker.py lines 204-224): scan blocks
in order; for each block, lower-case its text and append (once) every
section whose keyword list has a member contained in the text. -/
def detect_sections (blocks : List TextBlock) : List (List Char) :=
  blocks.foldl (fun acc b =>
    let tl := b.text.map Char.toLower
    sectionKeywords.foldl (fun acc2 p =>
      if p.2.any (fun k => substr k tl) then
        if p.1 ∈ acc2 then acc2 else acc2 ++ [p.1]
      else acc2) acc) []

/-- The section labels matched by one block: the first components of the
`sectionKeywords` rows whose keyword list has a member contained in the
block's lower-cased text, in table order. -/
def matchedLabels (b : TextBlock) : List (List Char) :=
  ((sectionKeywords.filter
    (fun p => p.2.any (fun k => substr k (b.text.map Char.toLower)))).map Prod.fst)

/-- All section-label match occurrences of a fragment sequence, enumerated
by scanning fragments in order and, within one fragment, the matching
labels in keyword-table order. -/
def occList (blocks : List TextBlock) : List (List Char) :=
  (blocks.map matchedLabels).flatten

/-- Keep-first-occurrence accumulator: append each element not already
present. `detect_sections` is this fold applied to `occList`. -/
def kfa (acc : List (List Char)) : List (List Char) → List (List Char)
  | [] => acc
  | x :: t => if x ∈ acc then kfa acc t else kfa (acc ++ [x]) t

/-- Index of the first occurrence of `a` (list length when absent). -/
def idxOf (a : List Char) : List (List Char) → Nat
  | [] => 0
  | b :: t => if b = a then 0 else idxOf a t + 1

/-- Index of the first fragment whose lower-cased text contains one of the
given label's keywords (the fragment count when no fragment matches);
renders the claim's notion of when a section is first seen. -/
def firstFragIdx (blocks : List TextBlock) (label : List Char) : Nat :=
  blocks.findIdx (fun b => label ∈ matchedLabels b)

/-- The fixed header list checked inside `extract_items`
(worker.py line 236), in source order. -/
def itemSectionList : List (List Char) :=
  ["appetizers".toList, "mains".toList, "desserts".toList, "drinks".toList,
   "salads".toList, "soups".toList]

/-- The section-header update of `extract_items` (worker.py lines 236-239):
the loop body `if section in text_lower: current_section = section; continue`
runs for every entry of the table (`continue` is the innermost loop's
last statement, hence a no-op), so a later matching entry overwrites an
earlier one. -/
def updateSection (cur : List Char) (tl : List Char) : List Char :=
  itemSectionList.foldl (fun c s => if substr s tl then s else c) cur

/-- First price of the first block in the window whose text yields at
least one price (worker.py lines 244-249). -/
def firstPriceIn : List TextBlock → Option Price
  | [] => none
  | b :: t =>
    match extract_prices b.text with
    | p :: _ => some p
    | [] => firstPriceIn t

/-- One extracted menu item candidate (worker.py lines 251-256).
`sectionLabel` embeds the Python dict key `'section'` (a Lean keyword). -/
structure Item where
  name : List Char
  sectionLabel : List Char
  price : Option Price
  bbox : List (Int × Int)
deriving DecidableEq

/-- Body of the `extract_items` scan (worker.py lines 231-256): `all` is
the whole block list (for the lookahead window `text_blocks[j]`,
`j ∈ [i, min(i+3, n))`, equal to `(all.drop i).take 3`), `rest` the
blocks still to visit, `i` the current index and `cur` the running
`current_section`. -/
def extractItemsAux (all : List TextBlock) :
    List TextBlock → Nat → List Char → List Item
  | [], _, _ => []
  | b :: rest, i, cur =>
    let tl := b.text.map Char.toLower
    let cur2 := updateSection cur tl
    let tail := extractItemsAux all rest (i + 1) cur2
    if 3 < b.text.length ∧ b.text.any Char.isAlpha then
      { name := b.text
        sectionLabel := cur2
        price := firstPriceIn ((all.drop i).take 3)
        bbox := b.bbox } :: tail
    else tail

/-- `OCRProcessor.extract_items` (worker.py lines 226-258). -/
def extract_items (blocks : List TextBlock) (sections : List (List Char)) :
    List Item :=
  let cur0 := match sections with
    | [] => "unknown".toList
    | s :: _ => s
  extractItemsAux blocks blocks 0 cur0

/-- Join a list of texts with a separator (Python `sep.join`). -/
def joinWith (sep : List Char) : List (List Char) → List Char
  | [] => []
  | [t] => t
  | t :: ts => t ++ sep ++ joinWith sep ts

/-- One page's structured result (worker.py `postprocess`, lines 144-170,
plus the `page_number` set by the page loop at line 309). -/
structure PageResult where
  full_text : List Char
  text_blocks : List TextBlock
  prices : List Price
  sections : List (List Char)
  items : List Item
  block_count : Nat
  page_number : Nat
deriving DecidableEq

/-- `OCRProcessor.postprocess` (worker.py lines 144-170); `page_number` is
filled in afterwards by the page loop. -/
def postprocess (blocks : List TextBlock) : PageResult :=
  let full_text := joinWith ['\n'] (blocks.map TextBlock.text)
  { full_text := full_text
    text_blocks := blocks
    prices := extract_prices full_text
    sections := detect_sections blocks
    items := extract_items blocks (detect_sections blocks)
    block_count := blocks.length
    page_number := 0 }

/-- Error message of a failed transform (Python exception text). -/
def Err : Type := List Char

instance : DecidableEq Err := fun a b => List.hasDecEq a b

/-- The per-page loop of `process_ocr_job` (worker.py lines 295-311):
pages are processed in order by the composite per-page pipeline `proc`
(preprocess, layout, text extraction, postprocess — fallible since the
image transforms can raise), each result is stamped with its 1-based
page number and appended. There is no per-page exception handler: an
exception escapes the loop, so nothing is collected past a failing
page. -/
def runPagesAux {α : Type} (proc : α → Except Err PageResult) :
    Nat → List α → Except Err (List PageResult)
  | _, [] => .ok []
  | idx, img :: rest =>
    match proc img with
    | .error e => .error e
    | .ok r =>
      match runPagesAux proc (idx + 1) rest with
      | .error e => .error e
      | .ok rs => .ok ({ r with page_number := idx + 1 } :: rs)

def runPages {α : Type} (proc : α → Except Err PageResult) (imgs : List α) :
    Except Err (List PageResult) :=
  runPagesAux proc 0 imgs

/-- The whole-document result (worker.py `combined_result`,
lines 313-319). -/
structure DocResult where
  pages : List PageResult
  total_pages : Nat
  total_text : List Char
  all_items : List Item
deriving DecidableEq

/-- The combination of per-page results (worker.py lines 313-319):
`total_pages` counts the input images, `total_text` joins page texts with
a blank-line separator, `all_items` flattens the per-page item lists in
page order. -/
def combineResults (results : List PageResult) (numImages : Nat) : DocResult :=
  { pages := results
    total_pages := numImages
    total_text := joinWith ['\n', '\n'] (results.map PageResult.full_text)
    all_items := (results.map PageResult.items).flatten }

/-- `process_ocr_job`'s processing core (worker.py lines 291-319): run the
page loop; on success combine the page results, on failure propagate the
exception (which `main`, lines 368-383, turns into a failed job). -/
def process_ocr_job_model {α : Type} (proc : α → Except Err PageResult)
    (images : List α) : Except Err DocResult :=
  match runPages proc images with
  | .error e => .error e
  | .ok results => .ok (combineResults results images.length)

/-- `true` exactly on a successful result. -/
def isOkE {ε β : Type} : Except ε β → Bool
  | .ok _ => true
  | .error _ => false

/-- The upscaling trigger of `preprocess` (worker.py line 70). -/
def upscaleTriggered (h w : Nat) : Bool :=
  h < 1200 || w < 900

/-- The uniform scale factor of `preprocess` (worker.py line 71),
`max(1200/height, 900/width)` as an exact rational (the source computes
it in floating point; the claims' dimensions are exact either way). -/
def scaleFactor (h w : Nat) : ℚ :=
  max ((1200 : ℚ) / (h : ℚ)) ((900 : ℚ) / (w : ℚ))

/-- The upscaling step of `preprocess` (worker.py lines 68-74) on the
(post-denoise) image dimensions `(height, width)`: when either dimension
is below its minimum, both are multiplied by the single scale factor and
truncated to integers (`int(...)`); otherwise they are unchanged. -/
def upscaleStep (h w : Nat) : Nat × Nat :=
  if upscaleTriggered h w then
    ((⌊(h : ℚ) * scaleFactor h w⌋).toNat, (⌊(w : ℚ) * scaleFactor h w⌋).toNat)
  else (h, w)

/-- Test fixture: a fragment with the given text, an empty polygon and a
unit confidence tag. -/
def tb (s : String) : TextBlock :=
  { text := s.toList, bbox := [], confidence := 1 }

/-- Test fixture: a page result carrying only a text and an item list. -/
def samplePage (txt : List Char) (its : List Item) : PageResult :=
  { full_text := txt, text_blocks := [], prices := [], sections := [],
    items := its, block_count := 0, page_number := 0 }

/-- Test fixture: a contentless menu item. -/
def sampleItem : Item :=
  { name := "x".toList, sectionLabel := "unknown".toList, price := none,
    bbox := [] }

/-- A left fold that overwrites its state with every element passing `p`
ends at the last passing element (or the start value if none passes). -/
theorem foldl_overwrite {α : Type} (p : α → Bool) :
    ∀ (L : List α) (cur : α),
      L.foldl (fun c s => if p s then s else c) cur = (L.filter p).getLastD cur := by
  intro L
  induction L with
  | nil => intro cur; rfl
  | cons x t ih =>
    intro cur
    by_cases hx : p x = true
    · rw [List.foldl_cons, if_pos hx, List.filter_cons, if_pos hx,
        List.getLastD_cons, ih x]
    · rw [List.foldl_cons, if_neg hx, List.filter_cons, if_neg hx, ih cur]

theorem kfa_cons_mem {acc : List (List Char)} {x : List Char}
    (t : List (List Char)) (hx : x ∈ acc) : kfa acc (x :: t) = kfa acc t := by
  simp only [kfa, if_pos hx]

theorem kfa_cons_not_mem {acc : List (List Char)} {x : List Char}
    (t : List (List Char)) (hx : x ∉ acc) :
    kfa acc (x :: t) = kfa (acc ++ [x]) t := by
  simp only [kfa, if_neg hx]

theorem kfa_append (l1 l2 : List (List Char)) :
    ∀ acc, kfa acc (l1 ++ l2) = kfa (kfa acc l1) l2 := by
  induction l1 with
  | nil => intro acc; rfl
  | cons x t ih =>
    intro acc
    by_cases hx : x ∈ acc
    · rw [List.cons_append, kfa_cons_mem _ hx, kfa_cons_mem _ hx, ih]
    · rw [List.cons_append, kfa_cons_not_mem _ hx, kfa_cons_not_mem _ hx, ih]

theorem mem_kfa : ∀ (l acc : List (List Char)) (x : List Char),
    x ∈ kfa acc l ↔ x ∈ acc ∨ x ∈ l := by
  intro l
  induction l with
  | nil => intro acc x; simp [kfa]
  | cons y t ih =>
    intro acc x
    by_cases hy : y ∈ acc
    · rw [kfa_cons_mem _ hy, ih]
      constructor
      · rintro (h | h)
        · exact Or.inl h
        · exact Or.inr (List.mem_cons_of_mem _ h)
      · rintro (h | h)
        · exact Or.inl h
        · rcases List.mem_cons.mp h with rfl | h2
          · exact Or.inl hy
          · exact Or.inr h2
    · rw [kfa_cons_not_mem _ hy, ih]
      rw [List.mem_append, List.mem_singleton, List.mem_cons]
      tauto

theorem kfa_nodup : ∀ (l acc : List (List Char)), acc.Nodup → (kfa acc l).Nodup := by
  intro l
  induction l with
  | nil => intro acc h; exact h
  | cons y t ih =>
    intro acc hacc
    by_cases hy : y ∈ acc
    · rw [kfa_cons_mem _ hy]; exact ih acc hacc
    · rw [kfa_cons_not_mem _ hy]
      exact ih _ (hacc.append (List.nodup_singleton y)
        (List.disjoint_singleton.mpr hy))

theorem kfa_eq_append : ∀ (l acc : List (List Char)),
    ∃ s, kfa acc l = acc ++ s := by
  intro l
  induction l with
  | nil => intro acc; exact ⟨[], (List.append_nil acc).symm⟩
  | cons y t ih =>
    intro acc
    by_cases hy : y ∈ acc
    · rw [kfa_cons_mem _ hy]; exact ih acc
    · rw [kfa_cons_not_mem _ hy]
      obtain ⟨s, hs⟩ := ih (acc ++ [y])
      exact ⟨y :: s, by rw [hs, List.append_assoc]; rfl⟩

theorem idxOf_append_of_mem : ∀ (l1 l2 : List (List Char)) (a : List Char),
    a ∈ l1 → idxOf a (l1 ++ l2) = idxOf a l1 := by
  intro l1
  induction l1 with
  | nil => intro l2 a ha; exact absurd ha (List.not_mem_nil a)
  | cons b t ih =>
    intro l2 a ha
    by_cases hb : b = a
    · simp [idxOf, hb]
    · rcases List.mem_cons.mp ha with rfl | ha2
      · exact absurd rfl hb
      · simp [idxOf, hb, ih l2 a ha2]

theorem idxOf_append_of_not_mem : ∀ (l1 l2 : List (List Char)) (a : List Char),
    a ∉ l1 → idxOf a (l1 ++ l2) = l1.length + idxOf a l2 := by
  intro l1
  induction l1 with
  | nil => intro l2 a _; simp [idxOf]
  | cons b t ih =>
    intro l2 a ha
    have hb : b ≠ a := fun h => ha (h ▸ List.mem_cons_self b t)
    have ha2 : a ∉ t := fun h => ha (List.mem_cons_of_mem _ h)
    simp only [List.cons_append, idxOf, if_neg hb, List.length_cons, List.append_eq]
    rw [ih l2 a ha2]
    omega

/-- The keep-first fold preserves the relative order of first occurrences:
for distinct `A`, `B` occurring in `l` and not already accumulated, `A`
ends up before `B` exactly when `A` first occurs before `B` in `l`. -/
theorem kfa_idx (A B : List Char) (hAB : A ≠ B) :
    ∀ (l acc : List (List Char)), A ∉ acc → B ∉ acc → A ∈ l → B ∈ l →
      (idxOf A (kfa acc l) < idxOf B (kfa acc l) ↔ idxOf A l < idxOf B l) := by
  intro l
  induction l with
  | nil => intro acc _ _ hA _; exact absurd hA (List.not_mem_nil A)
  | cons x t ih =>
    intro acc hAacc hBacc hAl hBl
    by_cases hx : x ∈ acc
    · have hAx : ¬(x = A) := fun h => hAacc (h ▸ hx)
      have hBx : ¬(x = B) := fun h => hBacc (h ▸ hx)
      have hAt : A ∈ t := by
        rcases List.mem_cons.mp hAl with h | h
        · exact absurd (h ▸ hx) hAacc
        · exact h
      have hBt : B ∈ t := by
        rcases List.mem_cons.mp hBl with h | h
        · exact absurd (h ▸ hx) hBacc
        · exact h
      rw [kfa_cons_mem _ hx]
      have h1 : idxOf A (x :: t) = idxOf A t + 1 := by simp [idxOf, hAx]
      have h2 : idxOf B (x :: t) = idxOf B t + 1 := by simp [idxOf, hBx]
      rw [h1, h2, ih acc hAacc hBacc hAt hBt]
      omega
    · rw [kfa_cons_not_mem _ hx]
      by_cases hAx : A = x
      · subst hAx
        have hBt : B ∈ t := by
          rcases List.mem_cons.mp hBl with h | h
          · exact absurd h.symm hAB
          · exact h
        have hBacc2 : B ∉ acc ++ [A] := by
          intro h
          rcases List.mem_append.mp h with h1 | h1
          · exact hBacc h1
          · exact hAB (List.mem_singleton.mp h1).symm
        obtain ⟨s, hs⟩ := kfa_eq_append t (acc ++ [A])
        have hAmem : A ∈ acc ++ [A] :=
          List.mem_append.mpr (Or.inr (List.mem_singleton.mpr rfl))
        have idxA : idxOf A (kfa (acc ++ [A]) t) = acc.length := by
          rw [hs, idxOf_append_of_mem _ _ _ hAmem,
            idxOf_append_of_not_mem _ _ _ hAacc]
          simp [idxOf]
        have idxB : idxOf B (kfa (acc ++ [A]) t) =
            acc.length + 1 + idxOf B s := by
          rw [hs, idxOf_append_of_not_mem _ _ _ hBacc2, List.length_append]
          simp
        have rA : idxOf A (A :: t) = 0 := by simp [idxOf]
        have hABne : ¬(A = B) := hAB
        have rB : idxOf B (A :: t) = idxOf B t + 1 := by
          simp [idxOf, hABne]
        rw [idxA, idxB, rA, rB]
        omega
      · by_cases hBx : B = x
        · subst hBx
          have hAt : A ∈ t := by
            rcases List.mem_cons.mp hAl with h | h
            · exact absurd h hAx
            · exact h
          have hAacc2 : A ∉ acc ++ [B] := by
            intro h
            rcases List.mem_append.mp h with h1 | h1
            · exact hAacc h1
            · exact hAx (List.mem_singleton.mp h1)
          obtain ⟨s, hs⟩ := kfa_eq_append t (acc ++ [B])
          have hBmem : B ∈ acc ++ [B] :=
            List.mem_append.mpr (Or.inr (List.mem_singleton.mpr rfl))
          have idxB : idxOf B (kfa (acc ++ [B]) t) = acc.length := by
            rw [hs, idxOf_append_of_mem _ _ _ hBmem,
              idxOf_append_of_not_mem _ _ _ hBacc]
            simp [idxOf]
          have idxA : idxOf A (kfa (acc ++ [B]) t) =
              acc.length + 1 + idxOf A s := by
            rw [hs, idxOf_append_of_not_mem _ _ _ hAacc2, List.length_append]
            simp
          have rB : idxOf B (B :: t) = 0 := by simp [idxOf]
          have hBA : ¬(B = A) := fun h => hAx h.symm
          have rA : idxOf A (B :: t) = idxOf A t + 1 := by
            simp [idxOf, hBA]
          rw [idxA, idxB, rA, rB]
          omega
        · have hAt : A ∈ t := by
            rcases List.mem_cons.mp hAl with h | h
            · exact absurd h hAx
            · exact h
          have hBt : B ∈ t := by
            rcases List.mem_cons.mp hBl with h | h
            · exact absurd h hBx
            · exact h
          have hAacc2 : A ∉ acc ++ [x] := by
            intro h
            rcases List.mem_append.mp h with h1 | h1
            · exact hAacc h1
            · exact hAx (List.mem_singleton.mp h1)
          have hBacc2 : B ∉ acc ++ [x] := by
            intro h
            rcases List.mem_append.mp h with h1 | h1
            · exact hBacc h1
            · exact hBx (List.mem_singleton.mp h1)
          have hxA : ¬(x = A) := fun h => hAx h.symm
          have hxB : ¬(x = B) := fun h => hBx h.symm
          have rA : idxOf A (x :: t) = idxOf A t + 1 := by
            simp [idxOf, hxA]
          have rB : idxOf B (x :: t) = idxOf B t + 1 := by
            simp [idxOf, hxB]
          rw [rA, rB, ih (acc ++ [x]) hAacc2 hBacc2 hAt hBt]
          omega

/-- The inner fold of `detect_sections` over the keyword table equals the
keep-first accumulation of the labels the block matches, in table order. -/
theorem innerFold_eq_kfa (tl : List Char) :
    ∀ (tbl : List (List Char × List (List Char))) (acc : List (List Char)),
      tbl.foldl (fun acc2 p =>
        if p.2.any (fun k => substr k tl) then
          if p.1 ∈ acc2 then acc2 else acc2 ++ [p.1]
        else acc2) acc
      = kfa acc ((tbl.filter (fun p => p.2.any (fun k => substr k tl))).map
          Prod.fst) := by
  intro tbl
  induction tbl with
  | nil => intro acc; rfl
  | cons p t ih =>
    intro acc
    by_cases hp : p.2.any (fun k => substr k tl) = true
    · rw [List.foldl_cons, List.filter_cons, if_pos hp, if_pos hp, List.map_cons]
      by_cases hmem : p.1 ∈ acc
      · rw [if_pos hmem, kfa_cons_mem _ hmem, ih acc]
      · rw [if_neg hmem, kfa_cons_not_mem _ hmem, ih (acc ++ [p.1])]
    · rw [List.foldl_cons, List.filter_cons, if_neg hp, if_neg hp, ih acc]

/-- `detect_sections` is the keep-first accumulation of the full match
occurrence list. -/
theorem detect_sections_eq_kfa : ∀ (blocks : List TextBlock) (acc : List (List Char)),
    blocks.foldl (fun acc b =>
      let tl := b.text.map Char.toLower
      sectionKeywords.foldl (fun acc2 p =>
        if p.2.any (fun k => substr k tl) then
          if p.1 ∈ acc2 then acc2 else acc2 ++ [p.1]
        else acc2) acc) acc
    = kfa acc (blocks.map matchedLabels).flatten := by
  intro blocks
  induction blocks with
  | nil => intro acc; rfl
  | cons b t ih =>
    intro acc
    rw [List.foldl_cons, List.map_cons, List.flatten_cons, kfa_append]
    rw [ih]
    have : (sectionKeywords.foldl (fun acc2 p =>
        if p.2.any (fun k => substr k (b.text.map Char.toLower)) then
          if p.1 ∈ acc2 then acc2 else acc2 ++ [p.1]
        else acc2) acc) = kfa acc (matchedLabels b) :=
      innerFold_eq_kfa (b.text.map Char.toLower) sectionKeywords acc
    rw [this]

theorem detect_sections_eq (blocks : List TextBlock) :
    detect_sections blocks = kfa [] (occList blocks) :=
  detect_sections_eq_kfa blocks []

/-- A failing page aborts the page loop: with any prefix of successful
pages, the first failing page's error is the loop's result. -/
theorem runPagesAux_error {α : Type} (proc : α → Except Err PageResult)
    (bad : α) (rest : List α) (e : Err) (hbad : proc bad = .error e) :
    ∀ (pre : List α) (idx : Nat), (∀ p ∈ pre, ∃ r, proc p = .ok r) →
      runPagesAux proc idx (pre ++ bad :: rest) = .error e := by
  intro pre
  induction pre with
  | nil => intro idx _; simp [runPagesAux, hbad]
  | cons q t ih =>
    intro idx hpre
    obtain ⟨r, hr⟩ := hpre q (List.mem_cons_self q t)
    have ht : ∀ p ∈ t, ∃ r2, proc p = .ok r2 :=
      fun p hp => hpre p (List.mem_cons_of_mem _ hp)
    simp [runPagesAux, hr, ih (idx + 1) ht]

/-- A successful page loop returns one result per input page. -/
theorem runPagesAux_ok_length {α : Type} (proc : α → Except Err PageResult) :
    ∀ (imgs : List α) (idx : Nat) (results : List PageResult),
      runPagesAux proc idx imgs = .ok results → results.length = imgs.length := by
  intro imgs
  induction imgs with
  | nil =>
    intro idx results hok
    simp only [runPagesAux] at hok
    cases hok
    rfl
  | cons img rest ih =>
    intro idx results hok
    simp only [runPagesAux] at hok
    cases hq : proc img with
    | error e => rw [hq] at hok; cases hok
    | ok r =>
      rw [hq] at hok
      cases hrec : runPagesAux proc (idx + 1) rest with
      | error e => rw [hrec] at hok; cases hok
      | ok rs =>
        rw [hrec] at hok
        cases hok
        simp [ih (idx + 1) rs hrec]

/-- If the window scan finds a price, the window splits into a prefix of
blocks yielding no price, then the block whose first extracted price is
the one found. -/
theorem firstPriceIn_spec : ∀ (ws : List TextBlock) (p : Price),
    firstPriceIn ws = some p →
    ∃ pre b suf, ws = pre ++ b :: suf ∧
      (∀ x ∈ pre, extract_prices x.text = []) ∧
      (extract_prices b.text).head? = some p := by
  intro ws
  induction ws with
  | nil => intro p hp; cases hp
  | cons w t ih =>
    intro p hp
    cases hw : extract_prices w.text with
    | nil =>
      simp only [firstPriceIn, hw] at hp
      obtain ⟨pre, b, suf, hsplit, hpre, hhead⟩ := ih p hp
      refine ⟨w :: pre, b, suf, by rw [hsplit]; rfl, ?_, hhead⟩
      intro x hx
      rcases List.mem_cons.mp hx with rfl | hx2
      · exact hw
      · exact hpre x hx2
    | cons q qs =>
      simp only [firstPriceIn, hw] at hp
      cases hp
      refine ⟨[], w, t, rfl, ?_, ?_⟩
      · intro x hx; cases hx
      · rw [hw]; rfl

/-- Every item emitted by the `extract_items` scan takes its name from
the fragment at some index `j` and its price from the 3-fragment window
starting at `j`. -/
theorem extractItemsAux_price (blocks : List TextBlock) :
    ∀ (rest : List TextBlock) (i : Nat) (cur : List Char) (it : Item),
      rest = blocks.drop i → it ∈ extractItemsAux blocks rest i cur →
      ∃ j b, blocks.drop j = b :: blocks.drop (j + 1) ∧ it.name = b.text ∧
        it.price = firstPriceIn ((blocks.drop j).take 3) := by
  intro rest
  induction rest with
  | nil => intro i cur it _ hmem; cases hmem
  | cons b t ih =>
    intro i cur it hrest hmem
    have ht : t = blocks.drop (i + 1) := by
      have h1 : blocks.drop (i + 1) = List.drop 1 (blocks.drop i) := by
        rw [List.drop_drop]
      rw [h1, ← hrest]
      rfl
    simp only [extractItemsAux] at hmem
    by_cases hcond : 3 < b.text.length ∧ b.text.any Char.isAlpha = true
    · rw [if_pos hcond] at hmem
      rcases List.mem_cons.mp hmem with rfl | hmem2
      · exact ⟨i, b, by rw [← hrest, ← ht], rfl, rfl⟩
      · exact ih (i + 1) _ it ht hmem2
    · rw [if_neg hcond] at hmem
      exact ih (i + 1) _ it ht hmem

/-- When the trigger fires, upscaling genuinely changes the dimensions:
the scaled height reaches at least 1200 when the height was low, the
scaled width at least 900 when the width was low. -/
theorem upscale_changes (h w : Nat) (hh : 0 < h) (hw : 0 < w)
    (htrig : h < 1200 ∨ w < 900) : upscaleStep h w ≠ (h, w) := by
  have htrigB : upscaleTriggered h w = true := by
    simp only [upscaleTriggered, Bool.or_eq_true, decide_eq_true_eq]
    exact htrig
  rw [upscaleStep, if_pos htrigB]
  intro heq
  rcases htrig with h1 | h1
  · have hfst := congrArg Prod.fst heq
    simp only at hfst
    have h0 : (0 : ℚ) < (h : ℚ) := by exact_mod_cast hh
    have hne : (h : ℚ) ≠ 0 := ne_of_gt h0
    have hle : (1200 : ℚ) / (h : ℚ) ≤ scaleFactor h w := le_max_left _ _
    have hq : (1200 : ℚ) ≤ (h : ℚ) * scaleFactor h w := by
      rw [mul_comm]
      exact le_trans (le_of_eq (div_mul_cancel₀ 1200 hne).symm)
        (mul_le_mul_of_nonneg_right hle h0.le)
    have hfl : (1200 : ℤ) ≤ ⌊(h : ℚ) * scaleFactor h w⌋ :=
      Int.le_floor.mpr (by exact_mod_cast hq)
    have hnn : (0 : ℤ) ≤ ⌊(h : ℚ) * scaleFactor h w⌋ :=
      le_trans (by norm_num) hfl
    have hge : (1200 : ℕ) ≤ (⌊(h : ℚ) * scaleFactor h w⌋).toNat :=
      (Int.le_toNat hnn).mpr hfl
    omega
  · have hsnd := congrArg Prod.snd heq
    simp only at hsnd
    have h0 : (0 : ℚ) < (w : ℚ) := by exact_mod_cast hw
    have hne : (w : ℚ) ≠ 0 := ne_of_gt h0
    have hle : (900 : ℚ) / (w : ℚ) ≤ scaleFactor h w := le_max_right _ _
    have hq : (900 : ℚ) ≤ (w : ℚ) * scaleFactor h w := by
      rw [mul_comm]
      exact le_trans (le_of_eq (div_mul_cancel₀ 900 hne).symm)
        (mul_le_mul_of_nonneg_right hle h0.le)
    have hfl : (900 : ℤ) ≤ ⌊(w : ℚ) * scaleFactor h w⌋ :=
      Int.le_floor.mpr (by exact_mod_cast hq)
    have hnn : (0 : ℤ) ≤ ⌊(w : ℚ) * scaleFactor h w⌋ :=
      le_trans (by norm_num) hfl
    have hge : (900 : ℕ) ≤ (⌊(w : ℚ) * scaleFactor h w⌋).toNat :=
      (Int.le_toNat hnn).mpr hfl
    omega

/-- Claim C2 counterexample: in `extract_items`, a fragment whose
lower-cased text contains both "appetizers" and "salads" does not get the
first matching label ("appetizers") as its section. The header loop's
trailing `continue` is a no-op, so the loop keeps running and the LAST
matching label in table order ("salads") is applied. -/
theorem claim_C2_counterexample :
    (extract_items [tb "Appetizers Salads"] []).map Item.sectionLabel ≠
      ["appetizers".toList] ∧
    (extract_items [tb "Appetizers Salads"] []).map Item.sectionLabel =
      ["salads".toList] := by
  constructor
  · decide
  · decide

/-- Claim C2 (amended): in `extract_items`, for a fragment whose
lower-cased text contains one or more of the labels of the fixed short
list, the LAST matching label in keyword-table order is applied to
`current_section` (the loop body's `continue` is its last statement and
never exits the loop, so later matches overwrite earlier ones); an item
emitted from such a single-fragment scan carries that last matching
label. -/
theorem claim_C2_amended (t : List Char) (g : List (Int × Int)) (conf : Nat)
    (secs : List (List Char)) (cur tl : List Char) :
    updateSection cur tl =
      (itemSectionList.filter (fun s => substr s tl)).getLastD cur ∧
    (3 < t.length → t.any Char.isAlpha = true →
      (extract_items [{ text := t, bbox := g, confidence := conf }] secs).map
          Item.sectionLabel =
        [(itemSectionList.filter
            (fun s => substr s (t.map Char.toLower))).getLastD
          (secs.headD ("unknown".toList))]) := by
  constructor
  · exact foldl_overwrite (fun s => substr s tl) itemSectionList cur
  · intro h1 h2
    have hcur0 : (match secs with
        | [] => "unknown".toList
        | s :: _ => s) = secs.headD ("unknown".toList) := by
      cases secs <;> rfl
    simp only [extract_items, extractItemsAux]
    rw [if_pos (And.intro h1 h2)]
    simp only [List.map_cons, List.map_nil]
    rw [hcur0]
    congr 1
    exact foldl_overwrite (fun s => substr s (t.map Char.toLower))
      itemSectionList (secs.headD ("unknown".toList))

/-- Claim C2 amended, witnessed at the fragment "Appetizers Salads" with
no detected sections: the emitted item carries section "salads", the
last matching label in table order. -/
theorem claim_C2_amended_witness :
    updateSection ("unknown".toList) ("appetizers salads".toList) =
      (itemSectionList.filter
        (fun s => substr s ("appetizers salads".toList))).getLastD
        ("unknown".toList) ∧
    (extract_items [tb "Appetizers Salads"] []).map Item.sectionLabel =
      [(itemSectionList.filter
          (fun s => substr s ("Appetizers Salads".toList.map Char.toLower))).getLastD
        (([] : List (List Char)).headD ("unknown".toList))] := by
  obtain ⟨h1, h2⟩ := claim_C2_amended "Appetizers Salads".toList [] 1 []
    ("unknown".toList) ("appetizers salads".toList)
  exact ⟨h1, h2 (by decide) (by decide)⟩

/-- Claim C3 counterexample: on the fragments "Starters",
"Caesar Salad $9", "Burger $12", `detect_sections` does not return
exactly ["appetizers", "salads"]: the keyword "burger" in the mains row
also fires on the third fragment. -/
theorem claim_C3_counterexample :
    detect_sections [tb "Starters", tb "Caesar Salad $9", tb "Burger $12"] ≠
      ["appetizers".toList, "salads".toList] := by
  decide

/-- Claim C3 (amended): on the fragments "Starters", "Caesar Salad $9",
"Burger $12", `detect_sections` returns exactly
["appetizers", "salads", "mains"], in that order: "starter" fires
appetizers on fragment 0, "salad" fires salads on fragment 1, and
"burger" fires mains on fragment 2. -/
theorem claim_C3_amended :
    detect_sections [tb "Starters", tb "Caesar Salad $9", tb "Burger $12"] =
      ["appetizers".toList, "salads".toList, "mains".toList] := by
  decide

/-- Claim C4 counterexample: `extract_prices` applied to "£5" DOES
produce a price — the decimal part of the £ pattern is optional, so a
bare integer matches. -/
theorem claim_C4_counterexample : extract_prices ("£5".toList) ≠ [] := by
  decide

/-- Claim C4 (amended): `extract_prices` applied to "£5" produces exactly
one Price, of value 5.0 (500 hundredths) and currency GBP, matched at
offset 0 with raw text "£5": the `£` pattern's decimal group is optional,
so bare integers without decimals are matched. -/
theorem claim_C4_amended :
    extract_prices ("£5".toList) =
      [{ value := 500, currency := .GBP, raw := "£5".toList, position := 0 }] := by
  decide

/-- Claim C6 (confirmed): on the fragments "Burger", "Fries", "$12.99",
"Salad", `extract_items` (with the sections detected from the same
fragments, as `postprocess` calls it) emits "Burger" with the price
12.99 USD (1299 hundredths) found in its 3-fragment lookahead window,
and "Salad" with no price ("$12.99" itself has no alphabetic character
and is not emitted; "Fries" also picks up the window price). -/
theorem claim_C6 :
    (extract_items [tb "Burger", tb "Fries", tb "$12.99", tb "Salad"]
        (detect_sections [tb "Burger", tb "Fries", tb "$12.99", tb "Salad"])).map
      (fun it => (it.name, it.price)) =
      [("Burger".toList,
         some { value := 1299, currency := .USD, raw := "$12.99".toList,
                position := 0 }),
       ("Fries".toList,
         some { value := 1299, currency := .USD, raw := "$12.99".toList,
                position := 0 }),
       ("Salad".toList, (none : Option Price))] := by
  decide

/-- Claim C7 (confirmed): `extract_prices` applied to "€10,99" returns
one Price of value 10.99 EUR (1099 hundredths; the comma separator is
normalized to a dot before parsing), and applied to "$8.50" returns one
Price of value 8.50 USD (850 hundredths). -/
theorem claim_C7 :
    extract_prices ("€10,99".toList) =
      [{ value := 1099, currency := .EUR, raw := "€10,99".toList,
         position := 0 }] ∧
    extract_prices ("$8.50".toList) =
      [{ value := 850, currency := .USD, raw := "$8.50".toList,
         position := 0 }] := by
  constructor
  · decide
  · decide

/-- Claim C5 counterexample: the claim's biconditional ("A precedes B in
the output exactly when A's first matching fragment occurs NO LATER THAN
B's") fails on ties. On the single fragment "soup salad", both soups and
salads are first matched by fragment 0, so each label's first fragment
occurs no later than the other's; yet the output is
["salads", "soups"] (keyword-table order), so soups does not precede
salads. -/
theorem claim_C5_counterexample :
    ¬ ((idxOf ("soups".toList) (detect_sections [tb "soup salad"]) <
        idxOf ("salads".toList) (detect_sections [tb "soup salad"])) ↔
       (firstFragIdx [tb "soup salad"] ("soups".toList) ≤
        firstFragIdx [tb "soup salad"] ("salads".toList))) := by
  decide

/-- Claim C5 (amended): for every fragment sequence, `detect_sections`
returns no duplicate labels; a label is returned exactly when some
fragment matches one of its keywords; and the output preserves
first-occurrence order, where occurrences are enumerated fragment by
fragment and, within one fragment, in keyword-table order (`occList`):
for distinct labels A and B, A precedes B in the output exactly when A's
first occurrence is STRICTLY earlier in that enumeration — in
particular, first-seen fragment order with ties broken by keyword-table
order. -/
theorem claim_C5_amended (blocks : List TextBlock) :
    (detect_sections blocks).Nodup ∧
    (∀ A, A ∈ detect_sections blocks ↔ A ∈ occList blocks) ∧
    (∀ A B, A ∈ occList blocks → B ∈ occList blocks → A ≠ B →
      (idxOf A (detect_sections blocks) < idxOf B (detect_sections blocks) ↔
        idxOf A (occList blocks) < idxOf B (occList blocks))) := by
  rw [detect_sections_eq]
  refine ⟨kfa_nodup _ [] List.nodup_nil, fun A => ?_, fun A B hA hB hAB => ?_⟩
  · rw [mem_kfa]
    simp
  · exact kfa_idx A B hAB (occList blocks) [] (List.not_mem_nil A)
      (List.not_mem_nil B) hA hB

/-- Claim C5 amended, witnessed on the fragments "Starters",
"Caesar Salad $9", "Burger $12" with the labels appetizers and mains:
appetizers is matched first by fragment 0, mains first by fragment 2,
and appetizers precedes mains in the output. -/
theorem claim_C5_amended_witness :
    (detect_sections [tb "Starters", tb "Caesar Salad $9", tb "Burger $12"]).Nodup ∧
    ("mains".toList ∈
        detect_sections [tb "Starters", tb "Caesar Salad $9", tb "Burger $12"] ↔
      "mains".toList ∈
        occList [tb "Starters", tb "Caesar Salad $9", tb "Burger $12"]) ∧
    (idxOf ("appetizers".toList)
        (detect_sections [tb "Starters", tb "Caesar Salad $9", tb "Burger $12"]) <
      idxOf ("mains".toList)
        (detect_sections [tb "Starters", tb "Caesar Salad $9", tb "Burger $12"]) ↔
      idxOf ("appetizers".toList)
        (occList [tb "Starters", tb "Caesar Salad $9", tb "Burger $12"]) <
      idxOf ("mains".toList)
        (occList [tb "Starters", tb "Caesar Salad $9", tb "Burger $12"])) := by
  have H := claim_C5_amended [tb "Starters", tb "Caesar Salad $9", tb "Burger $12"]
  exact ⟨H.1, H.2.1 ("mains".toList),
    H.2.2 ("appetizers".toList) ("mains".toList) (by decide) (by decide) (by decide)⟩

/-- Claim C8 (confirmed): in `preprocess`, upscaling is applied exactly
when the post-denoise height is below 1200 or the width below 900
pixels, and then both dimensions are multiplied by the single factor
`max(1200/height, 900/width)` (and truncated to integers); an image of
height 600 and width 800 is upscaled, one of height 1200 and width 1600
is left at native resolution. -/
theorem claim_C8 (h w : Nat) (hh : 0 < h) (hw : 0 < w) :
    ((upscaleStep h w ≠ (h, w)) ↔ (h < 1200 ∨ w < 900)) ∧
    ((h < 1200 ∨ w < 900) →
      upscaleStep h w =
        ((⌊(h : ℚ) * scaleFactor h w⌋).toNat,
         (⌊(w : ℚ) * scaleFactor h w⌋).toNat)) ∧
    upscaleStep 600 800 ≠ (600, 800) ∧
    upscaleStep 1200 1600 = (1200, 1600) := by
  have hnative : upscaleStep 1200 1600 = (1200, 1600) := by
    have hF : upscaleTriggered 1200 1600 = false := by decide
    rw [upscaleStep, hF]
    rfl
  refine ⟨⟨fun hne => ?_, fun htrig => upscale_changes h w hh hw htrig⟩,
    fun htrig => ?_,
    upscale_changes 600 800 (by norm_num) (by norm_num) (Or.inl (by norm_num)),
    hnative⟩
  · by_contra hnot
    apply hne
    have hB : ¬(upscaleTriggered h w = true) := by
      simp only [upscaleTriggered, Bool.or_eq_true, decide_eq_true_eq]
      exact hnot
    rw [upscaleStep, if_neg hB]
  · have htrigB : upscaleTriggered h w = true := by
      simp only [upscaleTriggered, Bool.or_eq_true, decide_eq_true_eq]
      exact htrig
    rw [upscaleStep, if_pos htrigB]

/-- Claim C8, witnessed at height 600, width 800 (the spec's 800×600
image): the trigger fires, the scaled dimensions are the floors of the
factor-scaled originals, and the image is not left at native
resolution. -/
theorem claim_C8_witness :
    ((upscaleStep 600 800 ≠ (600, 800)) ↔ ((600 : Nat) < 1200 ∨ (800 : Nat) < 900)) ∧
    (((600 : Nat) < 1200 ∨ (800 : Nat) < 900) →
      upscaleStep 600 800 =
        ((⌊(600 : ℚ) * scaleFactor 600 800⌋).toNat,
         (⌊(800 : ℚ) * scaleFactor 600 800⌋).toNat)) ∧
    upscaleStep 600 800 ≠ (600, 800) ∧
    upscaleStep 1200 1600 = (1200, 1600) := by
  exact claim_C8 600 800 (by norm_num) (by norm_num)

/-- Claim C1 counterexample: the page loop of `process_ocr_job` has no
per-page exception handler. On a two-page document whose first page
fails and whose second page would succeed, the whole job errors out and
no Document Result is produced — the successful page is not kept,
contrary to "the failing page is omitted ... and the document fails only
if zero pages produced a Page Result". -/
theorem claim_C1_counterexample :
    process_ocr_job_model (fun x => x)
        [Except.error ("preprocess failed".toList),
         Except.ok (samplePage ("page two".toList) [])] =
      Except.error ("preprocess failed".toList) ∧
    isOkE (process_ocr_job_model (fun x => x)
        [Except.error ("preprocess failed".toList),
         Except.ok (samplePage ("page two".toList) [])]) = false :=
  ⟨rfl, rfl⟩

/-- Claim C1 (amended): if the per-page pipeline (preprocess onwards)
fails on any page, the WHOLE document fails: `process_ocr_job`
propagates the first failing page's error past any successfully
processed pages, no later page is processed, no Document Result is
produced, and `main` records the job as failed with that error
message. -/
theorem claim_C1_amended {α : Type} (proc : α → Except Err PageResult)
    (pre rest : List α) (bad : α) (e : Err)
    (hpre : ∀ p ∈ pre, ∃ r, proc p = .ok r) (hbad : proc bad = .error e) :
    process_ocr_job_model proc (pre ++ bad :: rest) = .error e := by
  have h := runPagesAux_error proc bad rest e hbad pre 0 hpre
  simp [process_ocr_job_model, runPages, h]

/-- Claim C1 amended, witnessed on a three-page document whose second
page fails: the job errors with the failing page's message even though
the first page succeeded and a third page followed. -/
theorem claim_C1_amended_witness :
    process_ocr_job_model (fun x => x)
        [Except.ok (samplePage ("page one".toList) []),
         Except.error ("boom".toList),
         Except.ok (samplePage ("page three".toList) [])] =
      Except.error ("boom".toList) := by
  exact claim_C1_amended (fun x => x)
    [Except.ok (samplePage ("page one".toList) [])]
    [Except.ok (samplePage ("page three".toList) [])]
    (Except.error ("boom".toList)) ("boom".toList)
    (by
      intro p hp
      rw [List.mem_singleton] at hp
      exact ⟨samplePage ("page one".toList) [], by rw [hp]⟩)
    rfl

/-- Claim C9 (confirmed): when every page succeeds, the Document Result
collects one result per page: `total_text` joins the per-page texts with
a blank-line ("\n\n") separator, `all_items` is the concatenation of
every page's items in page order (its length is the sum of the per-page
item counts), and `total_pages` is the number of pages. -/
theorem claim_C9 {α : Type} (proc : α → Except Err PageResult) (imgs : List α)
    (results : List PageResult) (hok : runPages proc imgs = .ok results) :
    process_ocr_job_model proc imgs = .ok (combineResults results imgs.length) ∧
    results.length = imgs.length ∧
    (combineResults results imgs.length).total_pages = imgs.length ∧
    (combineResults results imgs.length).total_text =
      joinWith ['\n', '\n'] (results.map PageResult.full_text) ∧
    (combineResults results imgs.length).all_items =
      (results.map PageResult.items).flatten ∧
    (combineResults results imgs.length).all_items.length =
      (results.map (fun r => r.items.length)).sum := by
  refine ⟨by simp [process_ocr_job_model, hok], ?_, rfl, rfl, rfl, ?_⟩
  · exact runPagesAux_ok_length proc imgs 0 results hok
  · simp [combineResults, List.length_flatten, List.map_map]
    rfl

/-- Claim C9, witnessed on a two-page document with 3 items on page 1
and 2 items on page 2: the job succeeds with total_pages 2, all_items
of length 5 in page order, and the blank-line-joined text. -/
theorem claim_C9_witness :
    runPages (fun x => x)
        [Except.ok (samplePage ("page one".toList)
           [sampleItem, sampleItem, sampleItem]),
         Except.ok (samplePage ("page two".toList) [sampleItem, sampleItem])] =
      Except.ok
        [{ samplePage ("page one".toList)
             [sampleItem, sampleItem, sampleItem] with page_number := 1 },
         { samplePage ("page two".toList)
             [sampleItem, sampleItem] with page_number := 2 }] ∧
    process_ocr_job_model (fun x => x)
        [Except.ok (samplePage ("page one".toList)
           [sampleItem, sampleItem, sampleItem]),
         Except.ok (samplePage ("page two".toList) [sampleItem, sampleItem])] =
      Except.ok (combineResults
        [{ samplePage ("page one".toList)
             [sampleItem, sampleItem, sampleItem] with page_number := 1 },
         { samplePage ("page two".toList)
             [sampleItem, sampleItem] with page_number := 2 }] 2) ∧
    (combineResults
        [{ samplePage ("page one".toList)
             [sampleItem, sampleItem, sampleItem] with page_number := 1 },
         { samplePage ("page two".toList)
             [sampleItem, sampleItem] with page_number := 2 }] 2).total_pages = 2 ∧
    (combineResults
        [{ samplePage ("page one".toList)
             [sampleItem, sampleItem, sampleItem] with page_number := 1 },
         { samplePage ("page two".toList)
             [sampleItem, sampleItem] with page_number := 2 }] 2).all_items.length
      = 5 ∧
    (combineResults
        [{ samplePage ("page one".toList)
             [sampleItem, sampleItem, sampleItem] with page_number := 1 },
         { samplePage ("page two".toList)
             [sampleItem, sampleItem] with page_number := 2 }] 2).total_text =
      "page one".toList ++ ['\n', '\n'] ++ "page two".toList := by
  have hok : runPages (fun x => x)
      [Except.ok (samplePage ("page one".toList)
         [sampleItem, sampleItem, sampleItem]),
       Except.ok (samplePage ("page two".toList) [sampleItem, sampleItem])] =
      Except.ok
        [{ samplePage ("page one".toList)
             [sampleItem, sampleItem, sampleItem] with page_number := 1 },
         { samplePage ("page two".toList)
             [sampleItem, sampleItem] with page_number := 2 }] := rfl
  have H := claim_C9 (fun x => x) _ _ hok
  exact ⟨hok, H.1, by decide, by decide, by decide⟩

/-- Claim C10 (confirmed): in `extract_items`, whenever an emitted item
carries a price, the item's name is the text of some fragment at index
j, and the attached price is exactly the FIRST element of
`extract_prices` of the earliest fragment in the 3-fragment lookahead
window starting at j whose text yields at least one price (all earlier
window fragments yield none); prices past the head of that fragment's
list are never attached. -/
theorem claim_C10 (blocks : List TextBlock) (sections : List (List Char))
    (it : Item) (p : Price) (hmem : it ∈ extract_items blocks sections)
    (hp : it.price = some p) :
    ∃ j b, blocks.drop j = b :: blocks.drop (j + 1) ∧ it.name = b.text ∧
      ∃ pre b2 suf, (blocks.drop j).take 3 = pre ++ b2 :: suf ∧
        (∀ x ∈ pre, extract_prices x.text = []) ∧
        (extract_prices b2.text).head? = some p := by
  obtain ⟨j, b, hdrop, hname, hprice⟩ :=
    extractItemsAux_price blocks blocks 0 _ it (List.drop_zero blocks).symm hmem
  rw [hp] at hprice
  obtain ⟨pre, b2, suf, hsplit, hpre, hhead⟩ :=
    firstPriceIn_spec _ p hprice.symm
  exact ⟨j, b, hdrop, hname, pre, b2, suf, hsplit, hpre, hhead⟩

/-- Claim C10, witnessed on the fragments "Burger", "Fries", "$12.99",
"Salad": the "Burger" item's price 12.99 USD is the head of
`extract_prices` of "$12.99", the earliest priced fragment in Burger's
3-fragment window, whose earlier fragments yield no price. -/
theorem claim_C10_witness :
    ∃ j b,
      [tb "Burger", tb "Fries", tb "$12.99", tb "Salad"].drop j =
        b :: [tb "Burger", tb "Fries", tb "$12.99", tb "Salad"].drop (j + 1) ∧
      "Burger".toList = b.text ∧
      ∃ pre b2 suf,
        ([tb "Burger", tb "Fries", tb "$12.99", tb "Salad"].drop j).take 3 =
          pre ++ b2 :: suf ∧
        (∀ x ∈ pre, extract_prices x.text = []) ∧
        (extract_prices b2.text).head? =
          some { value := 1299, currency := .USD, raw := "$12.99".toList,
                 position := 0 } := by
  have H := claim_C10 [tb "Burger", tb "Fries", tb "$12.99", tb "Salad"]
    (detect_sections [tb "Burger", tb "Fries", tb "$12.99", tb "Salad"])
    { name := "Burger".toList, sectionLabel := "mains".toList,
      price := some { value := 1299, currency := .USD,
                      raw := "$12.99".toList, position := 0 },
      bbox := [] }
    { value := 1299, currency := .USD, raw := "$12.99".toList, position := 0 }
    (by decide) rfl
  exact H
